import Mathlib

/-!
Verification of the dotted-numeric version comparison routine `versionLT`
from `scripts/test_version.sh`.  The bash function is embedded shallowly:
strings are split on the dot character by a model of bash word splitting
with IFS set to the dot, fields are parsed in radix 10 as the arithmetic
expansion with the 10# prefix does, and the two comparison loops are
explicit structural recursions.
-/

/-- Splits a character list on the dot character, the way `$IFS`-based word
splitting cuts a string at each dot: adjacent dots delimit empty fields.
The accumulator holds the current field, reversed. -/
def splitDotAux : List Char → List Char → List (List Char)
  | [], acc => [acc.reverse]
  | c :: cs, acc =>
    if c = '.' then acc.reverse :: splitDotAux cs []
    else splitDotAux cs (c :: acc)

/-- Drops the final field when it is empty.  Bash word splitting does not
produce an empty final word for a trailing delimiter, and splits the empty
string into no words at all; this post-pass captures both rules. -/
def dropLastIfEmpty : List (List Char) → List (List Char)
  | [] => []
  | [f] => if f = [] then [] else [f]
  | f :: rest => f :: dropLastIfEmpty rest

/-- Bash word splitting of a string on dots, as `ver1=($1)` performs under
`IFS=.` in `versionLT`. -/
def bashSplitDot (s : List Char) : List (List Char) :=
  dropLastIfEmpty (splitDotAux s [])

/-- Accumulating decimal parse: the value of `$((10#f))` for a digit string
`f`, processing characters most significant first. -/
def decValAux : Nat → List Char → Nat
  | n, [] => n
  | n, c :: cs => decValAux (n * 10 + (c.toNat - 48)) cs

/-- Radix-10 value of a field, as the `10#` arithmetic expansion computes it;
the empty field evaluates to 0. -/
def decVal (f : List Char) : Nat := decValAux 0 f

/-- Right-pads a field array with zero fields up to length `n`, as the first
loop in `versionLT` does with `ver1[i]=0` for `i` from `${#ver1[@]}` to
`${#ver2[@]}-1`.  If the array already has length at least `n`, nothing is
appended. -/
def padTo (l : List (List Char)) (n : Nat) : List (List Char) :=
  l ++ List.replicate (n - l.length) ['0']

/-- Reading `ver2[i]` inside the comparison loop: an unset or empty entry is
filled with the zero field first (the `[[ -z ${ver2[i]} ]]` branch). -/
def ver2Field (ver2 : List (List Char)) (i : Nat) : List Char :=
  if ver2.getD i [] = [] then ['0'] else ver2.getD i []

/-- The comparison loop of `versionLT`: walks the remaining fields of the
padded first array while indexing into the second array with `i`, returning
true on the first position where the left value is smaller, false on the
first position where it is larger, and false when the fields run out. -/
def cmpLoop (ver2 : List (List Char)) : List (List Char) → Nat → Bool
  | [], _ => false
  | f :: rest, i =>
    if decVal f < decVal (ver2Field ver2 i) then true
    else if decVal (ver2Field ver2 i) < decVal f then false
    else cmpLoop ver2 rest (i + 1)

/-- The `versionLT` function of `scripts/test_version.sh`: returns true when
the first version string is strictly less than the second.  Identical strings
short-circuit to false; otherwise both strings are word-split on dots, the
first array is right-padded with zero fields to the second array's length,
and the loop compares radix-10 field values left to right. -/
def versionLT (a b : String) : Bool :=
  if a = b then false
  else
    let ver1 := bashSplitDot a.data
    let ver2 := bashSplitDot b.data
    cmpLoop ver2 (padTo ver1 ver2.length) 0

/-- A field is well formed when it is non-empty and all its characters are
decimal digits. -/
def wfField (f : List Char) : Bool := !f.isEmpty && f.all (·.isDigit)

/-- A version string is well formed when every dot-separated field is a
non-empty string of decimal digits. -/
def wellFormed (s : String) : Bool := (splitDotAux s.data []).all wfField

/-- Spec-side field sequence of a version string: split on dots, parse each
field as a radix-10 integer. -/
def fieldsOf (s : String) : List Nat := (splitDotAux s.data []).map decVal

/-- Spec-side right padding of a parsed field sequence with zero-valued
fields up to length `n`. -/
def padNat (l : List Nat) (n : Nat) : List Nat :=
  l ++ List.replicate (n - l.length) 0

/-- Spec-side comparison of two equal-length padded field sequences: true
exactly when, at the first position where they differ, the left value is
smaller; false when no position differs. -/
def lexLT : List Nat → List Nat → Bool
  | x :: xs, y :: ys =>
    if x < y then true
    else if y < x then false
    else lexLT xs ys
  | _, _ => false

/-- Modelled from the spec: the symmetric reference comparison — split both
strings on dots, parse the fields, right-pad both sequences with zeros to the
common maximum length, and compare field-wise, numerically, left to right. -/
def specVersionLT (a b : String) : Bool :=
  let xs := fieldsOf a
  let ys := fieldsOf b
  let n := max xs.length ys.length
  lexLT (padNat xs n) (padNat ys n)

/-- Index-based comparison loop lifted to parsed field values: reading an
out-of-range index of the second sequence yields 0. -/
def cmpLoopN (ys : List Nat) : List Nat → Nat → Bool
  | [], _ => false
  | x :: rest, i =>
    if x < ys.getD i 0 then true
    else if ys.getD i 0 < x then false
    else cmpLoopN ys rest (i + 1)

/-- Fuel-limited comparison loop: identical to `cmpLoop` but spends one unit
of fuel per examined position, answering `none` when fuel runs out before the
fields do. -/
def cmpLoopFuel (ver2 : List (List Char)) : Nat → List (List Char) → Nat → Option Bool
  | _, [], _ => some false
  | 0, _ :: _, _ => none
  | fuel + 1, f :: rest, i =>
    if decVal f < decVal (ver2Field ver2 i) then some true
    else if decVal (ver2Field ver2 i) < decVal f then some false
    else cmpLoopFuel ver2 fuel rest (i + 1)

/-- The `versionLT` computation with a fuel-limited comparison loop. -/
def versionLTFuel (fuel : Nat) (a b : String) : Option Bool :=
  if a = b then some false
  else
    let ver1 := bashSplitDot a.data
    let ver2 := bashSplitDot b.data
    cmpLoopFuel ver2 fuel (padTo ver1 ver2.length) 0

/-- Plain character-wise lexicographic order on strings (the naive string
comparison the spec contrasts with): shorter prefixes sort first, otherwise
the first differing character decides. -/
def strLexLT : List Char → List Char → Bool
  | [], [] => false
  | [], _ :: _ => true
  | _ :: _, [] => false
  | c :: cs, d :: ds =>
    if c < d then true
    else if d < c then false
    else strLexLT cs ds

theorem decVal_nil : decVal [] = 0 := rfl

theorem decVal_zero_field : decVal ['0'] = 0 := by decide

theorem decVal_ver2Field : ∀ (v2 : List (List Char)) (i : Nat),
    decVal (ver2Field v2 i) = (v2.map decVal).getD i 0
  | [], i => by
    simp [ver2Field, decVal_zero_field]
  | f :: fs, 0 => by
    by_cases h : f = []
    · simp [ver2Field, h, decVal_zero_field, decVal_nil]
    · simp [ver2Field, h]
  | f :: fs, i + 1 => by
    have := decVal_ver2Field fs i
    simpa [ver2Field, List.getD_cons_succ] using this

theorem cmpLoop_eq_cmpLoopN (v2 : List (List Char)) :
    ∀ (l : List (List Char)) (i : Nat),
    cmpLoop v2 l i = cmpLoopN (v2.map decVal) (l.map decVal) i
  | [], _ => rfl
  | f :: rest, i => by
    rw [cmpLoop, List.map_cons, cmpLoopN, decVal_ver2Field,
      cmpLoop_eq_cmpLoopN v2 rest (i + 1)]

theorem lexLT_nil_left : ∀ l : List Nat, lexLT [] l = false := by
  intro l; cases l <;> rfl

theorem padNat_nil (n : Nat) : padNat [] n = List.replicate n 0 := by
  simp [padNat]

theorem padNat_cons_succ (z : Nat) (l : List Nat) (n : Nat) :
    padNat (z :: l) (n + 1) = z :: padNat l n := by
  simp [padNat, Nat.succ_sub_succ]

theorem cmpLoopN_eq_lexLT : ∀ (ys xs : List Nat) (i : Nat),
    cmpLoopN ys xs i = lexLT xs (padNat (ys.drop i) xs.length)
  | ys, [], i => by simp [cmpLoopN, lexLT_nil_left]
  | ys, x :: rest, i => by
    cases h : ys.drop i with
    | nil =>
      have hlen : ys.length ≤ i := List.drop_eq_nil_iff.mp h
      have h1 : ys.getD i 0 = 0 := List.getD_eq_default ys 0 hlen
      have h2 : ys.drop (i + 1) = [] :=
        List.drop_eq_nil_iff.mpr (Nat.le_trans hlen (Nat.le_succ i))
      rw [cmpLoopN, h1, cmpLoopN_eq_lexLT ys rest (i + 1), h2,
        List.length_cons, padNat_nil, padNat_nil, List.replicate_succ, lexLT]
    | cons z zs =>
      have h1 : ys.getD i 0 = z := by
        have hz : ys[i]? = some z := by
          have := List.getElem?_drop ys i 0
          simp [h] at this
          simpa using this.symm
        simp [List.getD, hz]
      have h2 : ys.drop (i + 1) = zs := by
        rw [← List.tail_drop, h, List.tail_cons]
      rw [cmpLoopN, h1, cmpLoopN_eq_lexLT ys rest (i + 1), h2,
        List.length_cons, padNat_cons_succ, lexLT]

theorem map_decVal_padTo (l : List (List Char)) (n : Nat) :
    (padTo l n).map decVal = padNat (l.map decVal) n := by
  simp [padTo, padNat, List.map_append, List.map_replicate, decVal_zero_field]

theorem padNat_length (l : List Nat) (n : Nat) :
    (padNat l n).length = max l.length n := by
  simp [padNat]
  omega

theorem padNat_to_max (l : List Nat) (n : Nat) :
    padNat l n = padNat l (max l.length n) := by
  have h : n - l.length = max l.length n - l.length := by omega
  rw [padNat, padNat, h]

theorem lexLT_self : ∀ l : List Nat, lexLT l l = false
  | [] => rfl
  | x :: xs => by simp [lexLT, lexLT_self xs]

theorem wfField_ne_nil {f : List Char} (h : wfField f = true) : f ≠ [] := by
  intro hf
  rw [hf] at h
  simp [wfField] at h

theorem dropLastIfEmpty_eq_self : ∀ l : List (List Char),
    l.all wfField = true → dropLastIfEmpty l = l
  | [], _ => rfl
  | [f], h => by
    have hf : f ≠ [] := wfField_ne_nil (by simpa using h)
    simp [dropLastIfEmpty, hf]
  | f :: g :: rest, h => by
    have h2 : (g :: rest).all wfField = true := by
      simp only [List.all_cons, Bool.and_eq_true] at h ⊢
      exact h.2
    rw [show dropLastIfEmpty (f :: g :: rest) = f :: dropLastIfEmpty (g :: rest) from rfl,
      dropLastIfEmpty_eq_self (g :: rest) h2]

theorem bashSplitDot_of_wf {s : String} (h : wellFormed s = true) :
    bashSplitDot s.data = splitDotAux s.data [] :=
  dropLastIfEmpty_eq_self _ h

theorem splitDotAux_ne_nil : ∀ (s acc : List Char), splitDotAux s acc ≠ []
  | [], acc => by simp [splitDotAux]
  | c :: cs, acc => by
    rw [splitDotAux]
    split
    · simp
    · exact splitDotAux_ne_nil cs _

/-- The main refinement fact: on well-formed inputs the bash implementation
agrees with the symmetric pad-both-then-compare reference. -/
theorem versionLT_eq_specVersionLT (a b : String)
    (ha : wellFormed a = true) (hb : wellFormed b = true) :
    versionLT a b = specVersionLT a b := by
  by_cases hab : a = b
  · subst hab
    have h1 : versionLT a a = false := by simp [versionLT]
    have h2 : specVersionLT a a = false := by
      simp only [specVersionLT]
      exact lexLT_self _
    rw [h1, h2]
  · rw [versionLT]
    simp only [if_neg hab]
    rw [bashSplitDot_of_wf ha, bashSplitDot_of_wf hb,
      cmpLoop_eq_cmpLoopN, cmpLoopN_eq_lexLT, map_decVal_padTo, List.drop_zero]
    simp only [specVersionLT, fieldsOf]
    rw [padNat_length, List.length_map, List.length_map]
    rw [padNat_to_max (List.map decVal (splitDotAux a.data []))
      (splitDotAux b.data []).length, List.length_map]

theorem getD_replicate_zero (r m : Nat) : (List.replicate r (0 : Nat)).getD m 0 = 0 := by
  by_cases h : m < r
  · rw [List.getD_eq_getElem _ _ (by simpa using h)]
    simp
  · exact List.getD_eq_default _ _ (by simpa using Nat.le_of_not_lt h)

theorem getD_padNat (l : List Nat) (n j : Nat) : (padNat l n).getD j 0 = l.getD j 0 := by
  by_cases h : j < l.length
  · rw [padNat]
    exact List.getD_append _ _ _ _ h
  · have h' : l.length ≤ j := Nat.le_of_not_lt h
    rw [padNat, List.getD_append_right _ _ _ _ h', getD_replicate_zero,
      List.getD_eq_default _ _ h']

theorem lexLT_iff_firstDiff : ∀ (xs ys : List Nat), xs.length = ys.length →
    (lexLT xs ys = true ↔
      ∃ i, xs.getD i 0 < ys.getD i 0 ∧ ∀ j, j < i → xs.getD j 0 = ys.getD j 0)
  | [], [], _ => by
    constructor
    · intro h
      exact absurd h (by decide)
    · rintro ⟨i, hi, -⟩
      simp [List.getD_nil] at hi
  | [], y :: ys, hlen => by simp at hlen
  | x :: xs, [], hlen => by simp at hlen
  | x :: xs, y :: ys, hlen => by
    have hlen' : xs.length = ys.length := by simpa using hlen
    rcases Nat.lt_trichotomy x y with hxy | hxy | hxy
    · rw [lexLT, if_pos hxy]
      constructor
      · intro _
        exact ⟨0, by simpa using hxy, fun j hj => absurd hj (Nat.not_lt_zero j)⟩
      · intro _
        rfl
    · subst hxy
      rw [show lexLT (x :: xs) (x :: ys) = lexLT xs ys from by simp [lexLT],
        lexLT_iff_firstDiff xs ys hlen']
      constructor
      · rintro ⟨i, hi, hj⟩
        refine ⟨i + 1, by simpa using hi, fun j hjlt => ?_⟩
        cases j with
        | zero => simp
        | succ j' =>
          have := hj j' (Nat.lt_of_succ_lt_succ hjlt)
          simpa using this
      · rintro ⟨i, hi, hj⟩
        cases i with
        | zero =>
          simp at hi
        | succ i' =>
          refine ⟨i', by simpa using hi, fun j hjlt => ?_⟩
          have := hj (j + 1) (Nat.succ_lt_succ hjlt)
          simpa using this
    · rw [lexLT, if_neg (Nat.lt_asymm hxy), if_pos hxy]
      constructor
      · intro h
        exact absurd h (by decide)
      · rintro ⟨i, hi, hj⟩
        cases i with
        | zero =>
          simp at hi
          exact absurd hi (Nat.lt_asymm hxy)
        | succ i' =>
          have := hj 0 (Nat.succ_pos i')
          simp at this
          subst this
          exact absurd hxy (lt_irrefl x)

theorem lexLT_antisymm : ∀ (xs ys : List Nat), xs.length = ys.length → xs ≠ ys →
    lexLT xs ys = !lexLT ys xs
  | [], [], _, hne => absurd rfl hne
  | [], y :: ys, hlen, _ => by simp at hlen
  | x :: xs, [], hlen, _ => by simp at hlen
  | x :: xs, y :: ys, hlen, hne => by
    have hlen' : xs.length = ys.length := by simpa using hlen
    rcases Nat.lt_trichotomy x y with h | h | h
    · rw [lexLT, if_pos h, lexLT, if_neg (Nat.lt_asymm h), if_pos h]
      rfl
    · subst h
      have hne' : xs ≠ ys := by
        intro he
        exact hne (by rw [he])
      rw [show lexLT (x :: xs) (x :: ys) = lexLT xs ys from by simp [lexLT],
        show lexLT (x :: ys) (x :: xs) = lexLT ys xs from by simp [lexLT],
        lexLT_antisymm xs ys hlen' hne']
    · rw [lexLT, if_neg (Nat.lt_asymm h), if_pos h, lexLT, if_pos h]
      rfl

theorem cmpLoop_congr (u w : List (List Char))
    (h : ∀ i, decVal (ver2Field u i) = decVal (ver2Field w i)) :
    ∀ (l : List (List Char)) (i : Nat), cmpLoop u l i = cmpLoop w l i
  | [], _ => rfl
  | f :: rest, i => by
    rw [cmpLoop, cmpLoop, h i, cmpLoop_congr u w h rest (i + 1)]

theorem splitDotAux_append_dot_zero : ∀ (s acc : List Char),
    splitDotAux (s ++ ['.', '0']) acc = splitDotAux s acc ++ [['0']]
  | [], acc => by
    rw [show splitDotAux ([] : List Char) acc = [acc.reverse] from rfl]
    simp +decide [splitDotAux]
  | c :: cs, acc => by
    rw [List.cons_append, splitDotAux, splitDotAux]
    by_cases h : c = '.'
    · rw [if_pos h, if_pos h, splitDotAux_append_dot_zero cs []]
      rfl
    · rw [if_neg h, if_neg h, splitDotAux_append_dot_zero cs (c :: acc)]

theorem data_append_dot_zero (v : String) : (v ++ ".0").data = v.data ++ ['.', '0'] := by
  rw [String.data_append]

theorem fieldsOf_append_zero (v : String) : fieldsOf (v ++ ".0") = fieldsOf v ++ [0] := by
  rw [fieldsOf, data_append_dot_zero, splitDotAux_append_dot_zero, List.map_append, fieldsOf]
  simp [decVal_zero_field]

theorem wellFormed_append_zero {v : String} (h : wellFormed v = true) :
    wellFormed (v ++ ".0") = true := by
  rw [wellFormed, data_append_dot_zero, splitDotAux_append_dot_zero, List.all_append]
  rw [wellFormed] at h
  simp [h]
  decide

theorem wellFormed_ne_empty {v : String} (h : wellFormed v = true) : v ≠ "" := by
  intro hv
  rw [hv] at h
  exact absurd h (by decide)

theorem cmpLoopFuel_complete (v2 : List (List Char)) :
    ∀ (l : List (List Char)) (fuel i : Nat), l.length ≤ fuel →
    cmpLoopFuel v2 fuel l i = some (cmpLoop v2 l i)
  | [], fuel, i, _ => by cases fuel <;> rfl
  | f :: rest, fuel, i, hf => by
    cases fuel with
    | zero => simp at hf
    | succ fu =>
      rw [cmpLoopFuel, cmpLoop,
        cmpLoopFuel_complete v2 rest fu (i + 1) (by simpa using hf)]
      by_cases h1 : decVal f < decVal (ver2Field v2 i)
      · rw [if_pos h1, if_pos h1]
      · rw [if_neg h1, if_neg h1]
        by_cases h2 : decVal (ver2Field v2 i) < decVal f
        · rw [if_pos h2, if_pos h2]
        · rw [if_neg h2, if_neg h2]

theorem padTo_length (l : List (List Char)) (n : Nat) :
    (padTo l n).length = max l.length n := by
  simp [padTo]
  omega

theorem padNat_self_succ (F : List Nat) : padNat F (F.length + 1) = F ++ [0] := by
  rw [padNat, Nat.add_sub_cancel_left]
  simp

theorem padNat_eq_self_of_le {F : List Nat} {n : Nat} (h : n ≤ F.length) : padNat F n = F := by
  rw [padNat, Nat.sub_eq_zero_of_le h]
  simp

/-- C1: for well-formed dotted-numeric version strings, `versionLT a b` is
true exactly when there is a position at which `a`'s zero-padded parsed field
is numerically smaller than `b`'s while every earlier position carries equal
fields; when no position differs the result is false. -/
theorem versionLT_iff_firstDiffPosition (a b : String)
    (ha : wellFormed a = true) (hb : wellFormed b = true) :
    versionLT a b = true ↔
      ∃ i, (fieldsOf a).getD i 0 < (fieldsOf b).getD i 0 ∧
        ∀ j, j < i → (fieldsOf a).getD j 0 = (fieldsOf b).getD j 0 := by
  rw [versionLT_eq_specVersionLT a b ha hb]
  simp only [specVersionLT]
  have hlen : (padNat (fieldsOf a) (max (fieldsOf a).length (fieldsOf b).length)).length
      = (padNat (fieldsOf b) (max (fieldsOf a).length (fieldsOf b).length)).length := by
    rw [padNat_length, padNat_length]
    omega
  rw [lexLT_iff_firstDiff _ _ hlen]
  simp only [getD_padNat]

/-- Witness for C1 at the concrete pair 2.190 and 2.200. -/
theorem versionLT_iff_firstDiffPosition_witness :
    wellFormed "2.190" = true ∧ wellFormed "2.200" = true ∧
      (versionLT "2.190" "2.200" = true ↔
        ∃ i, (fieldsOf "2.190").getD i 0 < (fieldsOf "2.200").getD i 0 ∧
          ∀ j, j < i → (fieldsOf "2.190").getD j 0 = (fieldsOf "2.200").getD j 0) :=
  ⟨by decide, by decide,
    versionLT_iff_firstDiffPosition "2.190" "2.200" (by decide) (by decide)⟩

/-- C2: the five reference test vectors of the test script hold. -/
theorem versionLT_reference_vectors :
    versionLT "2.190" "2.200" = true ∧ versionLT "2.200" "2.190" = false ∧
      versionLT "2.200" "2.200" = false ∧ versionLT "2.100.1" "2.100.2" = true ∧
      versionLT "2.100" "2.100.0" = false := by
  refine ⟨by decide, by decide, by decide, by decide, by decide⟩

/-- C3: identical input strings answer false through the string-identity
short-circuit, for arbitrary strings, well-formed or not. -/
theorem versionLT_identity_shortCircuit (a b : String) (h : a = b) :
    versionLT a b = false := by
  subst h
  simp [versionLT]

/-- Witness for C3 at a string that is not even a dotted-numeric version,
showing the equal case needs no field parsing. -/
theorem versionLT_identity_shortCircuit_witness :
    ("2.x.y" : String) = "2.x.y" ∧ versionLT "2.x.y" "2.x.y" = false :=
  ⟨rfl, versionLT_identity_shortCircuit "2.x.y" "2.x.y" rfl⟩

/-- C4: appending a zero field to a well-formed version yields an equal
version, so `versionLT` answers false in both directions. -/
theorem versionLT_append_zero (v : String) (h : wellFormed v = true) :
    versionLT v (v ++ ".0") = false ∧ versionLT (v ++ ".0") v = false := by
  have h' := wellFormed_append_zero h
  have hf := fieldsOf_append_zero v
  constructor
  · rw [versionLT_eq_specVersionLT v (v ++ ".0") h h']
    simp only [specVersionLT, hf]
    have hmax : max (fieldsOf v).length ((fieldsOf v) ++ [0]).length
        = (fieldsOf v).length + 1 := by
      rw [List.length_append]
      simp
    rw [hmax, padNat_self_succ, padNat_eq_self_of_le (by simp)]
    exact lexLT_self _
  · rw [versionLT_eq_specVersionLT (v ++ ".0") v h' h]
    simp only [specVersionLT, hf]
    have hmax : max ((fieldsOf v) ++ [0]).length (fieldsOf v).length
        = (fieldsOf v).length + 1 := by
      rw [List.length_append]
      simp
    rw [hmax, padNat_self_succ, padNat_eq_self_of_le (by simp)]
    exact lexLT_self _

/-- Witness for C4 at 2.100, reproducing the reference vectors for 2.100
against 2.100.0. -/
theorem versionLT_append_zero_witness :
    wellFormed "2.100" = true ∧
      versionLT "2.100" ("2.100" ++ ".0") = false ∧
      versionLT ("2.100" ++ ".0") "2.100" = false :=
  ⟨by decide, versionLT_append_zero "2.100" (by decide)⟩

/-- C5: fields compare by numeric value, not character-wise: the field 9 is
numerically below the field 10, `versionLT` puts 2.9 before 2.10, yet plain
character-wise string comparison puts 2.10 before 2.9. -/
theorem versionLT_numeric_not_lexicographic :
    decVal "9".data < decVal "10".data ∧ versionLT "2.9" "2.10" = true ∧
      strLexLT "2.10".data "2.9".data = true := by
  refine ⟨by decide, by decide, by decide⟩

/-- C6: for well-formed inputs whose zero-padded parsed field sequences
differ, exactly one direction of `versionLT` holds. -/
theorem versionLT_antisymmetry (a b : String)
    (ha : wellFormed a = true) (hb : wellFormed b = true)
    (hne : padNat (fieldsOf a) (max (fieldsOf a).length (fieldsOf b).length) ≠
      padNat (fieldsOf b) (max (fieldsOf a).length (fieldsOf b).length)) :
    (versionLT a b = true ∧ versionLT b a = false) ∨
      (versionLT a b = false ∧ versionLT b a = true) := by
  have hlen : (padNat (fieldsOf a) (max (fieldsOf a).length (fieldsOf b).length)).length
      = (padNat (fieldsOf b) (max (fieldsOf a).length (fieldsOf b).length)).length := by
    rw [padNat_length, padNat_length]
    omega
  rw [versionLT_eq_specVersionLT a b ha hb, versionLT_eq_specVersionLT b a hb ha]
  simp only [specVersionLT]
  rw [Nat.max_comm (fieldsOf b).length (fieldsOf a).length]
  have hanti := lexLT_antisymm _ _ hlen hne
  cases hpb : lexLT (padNat (fieldsOf b) (max (fieldsOf a).length (fieldsOf b).length))
      (padNat (fieldsOf a) (max (fieldsOf a).length (fieldsOf b).length)) with
  | false =>
    left
    rw [hpb] at hanti
    exact ⟨hanti, rfl⟩
  | true =>
    right
    rw [hpb] at hanti
    exact ⟨hanti, rfl⟩

/-- Witness for C6 at the pair 1 and 2. -/
theorem versionLT_antisymmetry_witness :
    (padNat (fieldsOf "1") (max (fieldsOf "1").length (fieldsOf "2").length) ≠
      padNat (fieldsOf "2") (max (fieldsOf "1").length (fieldsOf "2").length)) ∧
      ((versionLT "1" "2" = true ∧ versionLT "2" "1" = false) ∨
        (versionLT "1" "2" = false ∧ versionLT "2" "1" = true)) :=
  ⟨by decide, versionLT_antisymmetry "1" "2" (by decide) (by decide) (by decide)⟩

/-- C7: fields parse in radix 10, so 010 means ten, prepending zeros to a
field never changes its value, and any rewriting of the inputs that keeps the
parsed field sequences keeps the comparison result. -/
theorem versionLT_radix10 :
    decVal "010".data = 10 ∧
      (∀ (k : Nat) (f : List Char), decVal (List.replicate k '0' ++ f) = decVal f) ∧
      (∀ a b a2 b2 : String, wellFormed a = true → wellFormed b = true →
        wellFormed a2 = true → wellFormed b2 = true →
        fieldsOf a = fieldsOf a2 → fieldsOf b = fieldsOf b2 →
        versionLT a b = versionLT a2 b2) := by
  have h0 : ∀ t : List Char, decVal ('0' :: t) = decVal t := by
    intro t
    show decValAux (0 * 10 + ('0'.toNat - 48)) t = decValAux 0 t
    rw [show (0 : Nat) * 10 + ('0'.toNat - 48) = 0 from by decide]
  refine ⟨by decide, ?_, ?_⟩
  · intro k f
    induction k with
    | zero => rfl
    | succ k ih =>
      rw [List.replicate_succ, List.cons_append, h0, ih]
  · intro a b a2 b2 ha hb ha2 hb2 hfa hfb
    rw [versionLT_eq_specVersionLT a b ha hb, versionLT_eq_specVersionLT a2 b2 ha2 hb2]
    simp only [specVersionLT, hfa, hfb]

/-- Witness for C7: zero-padded rewritings of 2.9 and 2.10 compare alike. -/
theorem versionLT_radix10_witness :
    wellFormed "2.9" = true ∧ wellFormed "2.10" = true ∧
      wellFormed "02.09" = true ∧ wellFormed "002.010" = true ∧
      fieldsOf "2.9" = fieldsOf "02.09" ∧ fieldsOf "2.10" = fieldsOf "002.010" ∧
      versionLT "2.9" "2.10" = versionLT "02.09" "002.010" :=
  ⟨by decide, by decide, by decide, by decide, by decide, by decide,
    versionLT_radix10.2.2 "2.9" "2.10" "02.09" "002.010" (by decide) (by decide)
      (by decide) (by decide) (by decide) (by decide)⟩

/-- C8: on well-formed inputs the comparison terminates within
max(field count of a, field count of b) loop iterations: the fuel-limited
loop already answers, and agrees with the unlimited one. -/
theorem versionLT_terminates (a b : String)
    (ha : wellFormed a = true) (hb : wellFormed b = true) :
    versionLTFuel (max (fieldsOf a).length (fieldsOf b).length) a b
      = some (versionLT a b) := by
  by_cases hab : a = b
  · subst hab
    simp [versionLTFuel, versionLT]
  · simp only [versionLTFuel, versionLT, if_neg hab]
    apply cmpLoopFuel_complete
    rw [padTo_length, bashSplitDot_of_wf ha, bashSplitDot_of_wf hb]
    simp only [fieldsOf, List.length_map]
    exact le_refl _

/-- Witness for C8 at the pair 2.100.1 and 2.100.2. -/
theorem versionLT_terminates_witness :
    wellFormed "2.100.1" = true ∧ wellFormed "2.100.2" = true ∧
      versionLTFuel (max (fieldsOf "2.100.1").length (fieldsOf "2.100.2").length)
        "2.100.1" "2.100.2" = some (versionLT "2.100.1" "2.100.2") :=
  ⟨by decide, by decide, versionLT_terminates "2.100.1" "2.100.2" (by decide) (by decide)⟩

/-- C9: the empty input splits into no fields and every missing field is
zero-filled, so the empty string compares exactly like the version 0. -/
theorem versionLT_empty_as_zero :
    versionLT "" "0" = false ∧ versionLT "0" "" = false ∧
      ∀ v : String, wellFormed v = true →
        versionLT "" v = versionLT "0" v ∧ versionLT v "" = versionLT v "0" := by
  refine ⟨by decide, by decide, ?_⟩
  intro v hv
  by_cases hv0 : v = "0"
  · subst hv0
    exact ⟨by decide, by decide⟩
  · have hvne : v ≠ "" := wellFormed_ne_empty hv
    have hlen : 1 ≤ (bashSplitDot v.data).length := by
      rw [bashSplitDot_of_wf hv]
      rcases h : splitDotAux v.data [] with _ | ⟨f, rest⟩
      · exact absurd h (splitDotAux_ne_nil _ _)
      · simp
    constructor
    · have h1 : ¬("" : String) = v := fun h => hvne h.symm
      have h2 : ¬("0" : String) = v := fun h => hv0 h.symm
      simp only [versionLT, if_neg h1, if_neg h2]
      have hpad : padTo (bashSplitDot "".data) (bashSplitDot v.data).length
          = padTo (bashSplitDot "0".data) (bashSplitDot v.data).length := by
        rw [show bashSplitDot "".data = [] from rfl,
          show bashSplitDot "0".data = [['0']] from rfl, padTo, padTo]
        obtain ⟨m', hm⟩ : ∃ m', (bashSplitDot v.data).length = m' + 1 :=
          ⟨(bashSplitDot v.data).length - 1, by omega⟩
        rw [hm]
        simp [List.replicate_succ]
      rw [hpad]
    · have h1 : ¬v = "" := hvne
      have h2 : ¬v = "0" := hv0
      simp only [versionLT, if_neg h1, if_neg h2]
      rw [show bashSplitDot "".data = [] from rfl,
        show bashSplitDot "0".data = [['0']] from rfl]
      rw [show (([] : List (List Char))).length = 0 from rfl,
        show ([['0']] : List (List Char)).length = 1 from rfl]
      rw [padTo, padTo, Nat.zero_sub, Nat.sub_eq_zero_of_le hlen]
      apply cmpLoop_congr
      intro i
      cases i with
      | zero => rfl
      | succ i' => rfl

/-- Witness for C9 at the version 1.2. -/
theorem versionLT_empty_as_zero_witness :
    wellFormed "1.2" = true ∧
      (versionLT "" "1.2" = versionLT "0" "1.2" ∧
        versionLT "1.2" "" = versionLT "1.2" "0") :=
  ⟨by decide, versionLT_empty_as_zero.2.2 "1.2" (by decide)⟩

/-- C10: the implementation's asymmetric padding — eager zero padding of the
first array, lazy zero filling of the second inside the loop — computes the
same relation as the symmetric reference that right-pads both parsed
sequences to the common maximum length before comparing. -/
theorem versionLT_eq_symmetric_reference (a b : String)
    (ha : wellFormed a = true) (hb : wellFormed b = true) :
    versionLT a b = specVersionLT a b :=
  versionLT_eq_specVersionLT a b ha hb

/-- Witness for C10 at the pair 2.190 and 2.200. -/
theorem versionLT_eq_symmetric_reference_witness :
    wellFormed "2.190" = true ∧ wellFormed "2.200" = true ∧
      versionLT "2.190" "2.200" = specVersionLT "2.190" "2.200" :=
  ⟨by decide, by decide,
    versionLT_eq_symmetric_reference "2.190" "2.200" (by decide) (by decide)⟩
